import Mathlib

/-!
Verification development for the cosmo-cutout distributed lightcone cutout
pipeline (sources: src/processLC.cpp and src/util.cpp).  The C++ code is
shallowly embedded: float arithmetic is idealised as real arithmetic,
`std::vector<int>` offset/count buffers are modelled with an explicit
capacity/size/store record (so that `clear()` followed by `operator[]`
accesses can be reasoned about), and the per-step filter loops are modelled
as list recursions in the order the source iterates.
-/

namespace CosmoCutout

/-! ## C++ int vector model for the offset-exchange buffers

`Buffers_write.np_count` / `np_offset` (processLC.cpp:42-43) are
`std::vector<int>`.  The pipeline resizes them to `numranks` once
(processLC.cpp:68-69), and then every step clears them and writes through
`operator[]` and `MPI_Allgather` without resizing (processLC.cpp:348-361).
`CVecInt` records the capacity obtained from the initial resize, the logical
size, and the backing store; `clear` drops the size to zero but keeps the
capacity and the backing store, matching the libstdc++ behaviour the code
de facto relies on. -/
structure CVecInt where
  cap : ℕ
  sz : ℕ
  store : ℕ → ℤ

/-- Fresh vector after `resize(n)` as done once at function entry
(processLC.cpp:68-69): capacity and size `n`, value-initialised store. -/
def CVecInt.init (n : ℕ) : CVecInt := ⟨n, n, fun _ => 0⟩

/-- `clear()`: logical size becomes 0, capacity and backing store persist. -/
def CVecInt.clear (v : CVecInt) : CVecInt := ⟨v.cap, 0, v.store⟩

/-- `v[i] = x` through `operator[]`: writes the backing store, leaves the
logical size unchanged (no bounds check in `operator[]`). -/
def CVecInt.setIdx (v : CVecInt) (i : ℕ) (x : ℤ) : CVecInt :=
  ⟨v.cap, v.sz, fun j => if j = i then x else v.store j⟩

/-- `MPI_Allgather(&cutout_size, 1, MPI_INT, &v[0], 1, MPI_INT, ...)`
(processLC.cpp:355-356): writes the `n` gathered rank counts into the
backing store starting at element 0, regardless of the logical size. -/
def CVecInt.allgatherInto (v : CVecInt) (n : ℕ) (counts : ℕ → ℤ) : CVecInt :=
  ⟨v.cap, v.sz, fun j => if j < n then counts j else v.store j⟩

/-- The offset loop `for(int j=1; j < numranks; ++j) np_offset[j] =
np_offset[j-1] + np_count[j-1];` (processLC.cpp:359-361), unrolled as a
recursion on the remaining iteration count `s`, current index `j`. -/
def offsetLoop (c : CVecInt) (o : CVecInt) (j : ℕ) : ℕ → CVecInt
  | 0 => o
  | s + 1 => offsetLoop c (o.setIdx j (o.store (j - 1) + c.store (j - 1))) (j + 1) s

/-- The whole per-step offset-exchange phase (processLC.cpp:348-361):
clear both vectors, write `np_offset[0] = 0`, all-gather the per-rank
counts into `np_count`, then run the prefix-sum loop.  Returns the final
`(np_count, np_offset)` pair. -/
def offsetExchange (n : ℕ) (counts : ℕ → ℤ) : CVecInt × CVecInt :=
  let c0 := (CVecInt.init n).clear
  let o0 := (CVecInt.init n).clear
  let o1 := o0.setIdx 0 0
  let c1 := c0.allgatherInto n counts
  (c1, offsetLoop c1 o1 1 (n - 1))

/-- State of `np_offset` at the moment of the `np_offset[0] = 0` access
(processLC.cpp:349-351): just after `clear()`, before any resize back. -/
def clearedOffsetVec (n : ℕ) : CVecInt := (CVecInt.init n).clear

/-- State of `np_count` at the moment the all-gather writes through
`&np_count[0]` (processLC.cpp:349,355): just after `clear()`. -/
def clearedCountVec (n : ℕ) : CVecInt := (CVecInt.init n).clear

/-! ## Write layout and parallel write reconstruction -/

/-- Exclusive prefix sum of the per-rank counts, the functional content of
the offset recurrence `offset[0]=0; offset[j]=offset[j-1]+count[j-1]`
(processLC.cpp:351,359-361). -/
def npOffsets : List ℕ → List ℕ
  | [] => []
  | c :: cs => 0 :: (npOffsets cs).map (fun o => c + o)

/-- One seek-and-write into a flat file: `MPI_File_seek` to element
offset `off` followed by a write of the buffer `d`
(processLC.cpp:385-386 and analogous blocks). -/
def writeAt {α : Type} (f : List α) (off : ℕ) (d : List α) : List α :=
  f.take off ++ d ++ f.drop (off + d.length)

/-- A sequence of seek-and-writes applied to a file image in order. -/
def writeSeq {α : Type} (f : List α) : List (ℕ × List α) → List α
  | [] => f
  | (off, d) :: rest => writeSeq (writeAt f off d) rest

/-- The per-field parallel write of one step: every rank writes its full
buffer at its exclusive-prefix-sum element offset.  The ranks write
disjoint ranges, so the concurrent MPI writes are modelled as the
rank-ascending sequence of seek-and-writes into an initially empty file. -/
def writeAll {α : Type} (bufs : List (List α)) : List α :=
  writeSeq [] ((npOffsets (bufs.map List.length)).zip bufs)

/-! ## The id-file write events

The fixed-window step writes the `id` output buffer twice into the same
`id.<step>.bin` file: first seeking to `offset_id = sizeof(ID_T) *
np_offset[rank]` (8-byte `int64_t`) and writing `w.id` as `MPI_INT64_T`
(processLC.cpp:375,381-383), then later seeking to `offset_posvel =
sizeof(POSVEL_T) * np_offset[rank]` (4-byte `float`) and writing the same
`w.id` buffer again as `MPI_FLOAT` (processLC.cpp:374,421-423).  The halo
pipeline repeats the same pattern (processLC.cpp:848-850,888-890). -/
structure WriteEvent where
  byteOff : ℕ
  elemBytes : ℕ
  elemCount : ℕ
  deriving DecidableEq

/-- The ordered list of write events a rank issues against the id file in
one step, given its element offset `off = np_offset[rank]` and its local
output-batch length `n = w.id.size()`. -/
def idFileWrites (off n : ℕ) : List WriteEvent :=
  [⟨8 * off, 8, n⟩, ⟨4 * off, 4, n⟩]

/-! ## Step loop skip of the terminal step

Both pipelines begin each iteration with `step = atoi(step_strings[i]);
if(step == 499){ continue; }` (processLC.cpp:105-106 and 563-564), so the
steps actually processed (directory created, files written) are exactly the
non-499 entries, in order. -/

/-- Steps processed by the fixed-window pipeline (processLC.cpp:102-106). -/
def processedStepsFixed (steps : List ℤ) : List ℤ :=
  steps.filter (fun s => decide (s ≠ 499))

/-- Steps processed by the halo-centered pipeline (processLC.cpp:560-564). -/
def processedStepsHalo (steps : List ℤ) : List ℤ :=
  steps.filter (fun s => decide (s ≠ 499))

/-! ## Vector and matrix helpers (src/util.cpp)

Three-dimensional float vectors (`vector<float>` of length 3) and 3×3
matrices (`vector<vector<float>>`) are embedded with real components. -/

structure Vec3 where
  x : ℝ
  y : ℝ
  z : ℝ

structure Mat3 where
  a00 : ℝ
  a01 : ℝ
  a02 : ℝ
  a10 : ℝ
  a11 : ℝ
  a12 : ℝ
  a20 : ℝ
  a21 : ℝ
  a22 : ℝ

/-- Inner product of two 3-vectors, as computed by `dot` /
`std::inner_product` (util.cpp:481-499,469-471). -/
def dotv (u v : Vec3) : ℝ := u.x * v.x + u.y * v.y + u.z * v.z

/-- `cross(v1, v2, v1xv2)` (util.cpp:505-525). -/
def crossv (u v : Vec3) : Vec3 :=
  ⟨u.y * v.z - u.z * v.y, -(u.x * v.z - u.z * v.x), u.x * v.y - u.y * v.x⟩

/-- Magnitude `sqrt(inner_product(v, v))` used throughout util.cpp. -/
noncomputable def norm3 (v : Vec3) : ℝ := Real.sqrt (dotv v v)

/-- `normCross(a, b, k)` (util.cpp:531-561): the normalized cross product
`axb / mag_axb` with `axb = cross(a,b)` and `mag_axb =
sqrt(inner_product(axb, axb))`, component-wise zero when `mag_axb == 0`. -/
noncomputable def normCross (a b : Vec3) : Vec3 :=
  if Real.sqrt (dotv (crossv a b) (crossv a b)) = 0 then ⟨0, 0, 0⟩
  else
    ⟨(crossv a b).x / Real.sqrt (dotv (crossv a b) (crossv a b)),
     (crossv a b).y / Real.sqrt (dotv (crossv a b) (crossv a b)),
     (crossv a b).z / Real.sqrt (dotv (crossv a b) (crossv a b))⟩

/-- `vecPairAngle(v1, v2)` (util.cpp:459-475): the angle between two
vectors via `acos` of the normalised inner product. -/
noncomputable def vecPairAngle (u v : Vec3) : ℝ :=
  Real.arccos (dotv u v / (norm3 u * norm3 v))

/-- `cross_prod_matrix(k, K)` (util.cpp:662-681). -/
def crossProdMatrix (k : Vec3) : Mat3 :=
  ⟨0, -k.z, k.y, k.z, 0, -k.x, -k.y, k.x, 0⟩

/-- `squareMat(matrix)` (util.cpp:407-424): `ans[n][m] = Σ_y M[n][y]·M[y][m]`. -/
def squareMat (M : Mat3) : Mat3 :=
  ⟨M.a00 * M.a00 + M.a01 * M.a10 + M.a02 * M.a20,
   M.a00 * M.a01 + M.a01 * M.a11 + M.a02 * M.a21,
   M.a00 * M.a02 + M.a01 * M.a12 + M.a02 * M.a22,
   M.a10 * M.a00 + M.a11 * M.a10 + M.a12 * M.a20,
   M.a10 * M.a01 + M.a11 * M.a11 + M.a12 * M.a21,
   M.a10 * M.a02 + M.a11 * M.a12 + M.a12 * M.a22,
   M.a20 * M.a00 + M.a21 * M.a10 + M.a22 * M.a20,
   M.a20 * M.a01 + M.a21 * M.a11 + M.a22 * M.a21,
   M.a20 * M.a02 + M.a21 * M.a12 + M.a22 * M.a22⟩

/-- `scalarMultiply(matrix, scalar)` (util.cpp:384-401). -/
def scalarMultiply (M : Mat3) (s : ℝ) : Mat3 :=
  ⟨M.a00 * s, M.a01 * s, M.a02 * s,
   M.a10 * s, M.a11 * s, M.a12 * s,
   M.a20 * s, M.a21 * s, M.a22 * s⟩

/-- `matVecMul(matrix, vec)` (util.cpp:430-453). -/
def matVecMul (M : Mat3) (v : Vec3) : Vec3 :=
  ⟨M.a00 * v.x + M.a01 * v.y + M.a02 * v.z,
   M.a10 * v.x + M.a11 * v.y + M.a12 * v.z,
   M.a20 * v.x + M.a21 * v.y + M.a22 * v.z⟩

/-- `rotation_matrix(rank, K, B, R)` (util.cpp:687-712): the Rodrigues
matrix `R = I + sin(B)·K + (1−cos(B))·K²`. -/
noncomputable def rotationMatrix (K : Mat3) (B : ℝ) : Mat3 :=
  let K2 := squareMat K
  let Ks := scalarMultiply K (Real.sin B)
  let K2c := scalarMultiply K2 (1 - Real.cos B)
  ⟨1 + Ks.a00 + K2c.a00, Ks.a01 + K2c.a01, Ks.a02 + K2c.a02,
   Ks.a10 + K2c.a10, 1 + Ks.a11 + K2c.a11, Ks.a12 + K2c.a12,
   Ks.a20 + K2c.a20, Ks.a21 + K2c.a21, 1 + Ks.a22 + K2c.a22⟩

/-- The 3×3 identity matrix. -/
def idMat3 : Mat3 := ⟨1, 0, 0, 0, 1, 0, 0, 0, 1⟩

/-- Modelled from the spec: `rotate(k, B, v, v_rot)` is called at
processLC.cpp:775 but its body is not under src/ (it lives in a header).
Spec §4.2 states that rotate applies the Rodrigues rotation matrix
`R = I + sinB·K + (1−cosB)·K²`, built by `rotation_matrix` from the
cross-product matrix `K` of axis `k` (both under src/src/util.cpp), to the
position vector `v`. -/
noncomputable def rotate (k : Vec3) (B : ℝ) (v : Vec3) : Vec3 :=
  matVecMul (rotationMatrix (crossProdMatrix k) B) v

/-- The rotation axis for the halo-centered pipeline
(processLC.cpp:506-520): `normCross(halo_pos, rotated_pos, k)` with
`rotated_pos = (halo_r, 0, 0)` and `halo_r = sqrt(|halo_pos|²)`. -/
noncomputable def haloK (p : Vec3) : Vec3 := normCross p ⟨norm3 p, 0, 0⟩

/-- The rotation angle for the halo-centered pipeline (processLC.cpp:521):
`B = vecPairAngle(halo_pos, rotated_pos)`. -/
noncomputable def haloB (p : Vec3) : ℝ := vecPairAngle p ⟨norm3 p, 0, 0⟩

/-! ## Angular window and the cut loops (processLC.cpp:306-337,764-804) -/

/-- Modelled from the spec: the `ARCSEC` constant is defined in a header
not under src/; spec §4.3 and §9 fix the arcsecond scaling at ×3600. -/
noncomputable def ARCSEC : ℝ := 3600

/-- `theta = acos(z/r) * 180.0 / PI * ARCSEC` with
`r = sqrt(x*x + y*y + z*z)` (processLC.cpp:312-313). -/
noncomputable def sphTheta (x y z : ℝ) : ℝ :=
  Real.arccos (z / Real.sqrt (x * x + y * y + z * z)) * 180 / Real.pi * ARCSEC

/-- `phi = atan(y/x) * 180.0 / PI * ARCSEC` (processLC.cpp:314). -/
noncomputable def sphPhi (x y : ℝ) : ℝ :=
  Real.arctan (y / x) * 180 / Real.pi * ARCSEC

/-- One particle record of the local partition: the columns read from the
snapshot (processLC.cpp:8-22). -/
structure Particle where
  x : ℝ
  y : ℝ
  z : ℝ
  vx : ℝ
  vy : ℝ
  vz : ℝ
  a : ℝ
  id : ℤ
  step : ℤ
  rota : ℤ
  repl : ℤ

/-- The positive-octant pre-filter
`r.x[n] > 0.0 && r.y[n] > 0.0 && r.z[n] > 0.0` (processLC.cpp:309). -/
def octant (p : Particle) : Prop := 0 < p.x ∧ 0 < p.y ∧ 0 < p.z

/-- The strict four-bound window test `theta > theta_cut[0] && theta <
theta_cut[1] && phi > phi_cut[0] && phi < phi_cut[1]`
(processLC.cpp:317-318,784-785). -/
def windowTest (tc pc : ℝ × ℝ) (th ph : ℝ) : Prop :=
  tc.1 < th ∧ th < tc.2 ∧ pc.1 < ph ∧ ph < pc.2

/-- Selection condition of the fixed-window loop body
(processLC.cpp:309-318): octant pre-filter, then window test on the angles
of the raw position. -/
noncomputable def selectedFixed (tc pc : ℝ × ℝ) (p : Particle) : Prop :=
  octant p ∧ windowTest tc pc (sphTheta p.x p.y p.z) (sphPhi p.x p.y)

/-- The rotated position `v_rot = rotate(k, B, (x, y, z))` used by the
halo-centered loop body (processLC.cpp:772-775). -/
noncomputable def rotPos (k : Vec3) (B : ℝ) (p : Particle) : Vec3 :=
  rotate k B ⟨p.x, p.y, p.z⟩

/-- Selection condition of the halo-centered loop body
(processLC.cpp:767-785): octant pre-filter on the raw position, window
test on the angles of the rotated position. -/
noncomputable def selectedHalo (k : Vec3) (B : ℝ) (tc pc : ℝ × ℝ) (p : Particle) : Prop :=
  octant p ∧
    windowTest tc pc
      (sphTheta (rotPos k B p).x (rotPos k B p).y (rotPos k B p).z)
      (sphPhi (rotPos k B p).x (rotPos k B p).y)

open Classical in
/-- The fixed-window cut loop (processLC.cpp:306-337): iterate the local
partition in order and `push_back` each selected record (all original
columns plus the derived `theta`, `phi`, which are functions of the
record's position) onto the output batch. -/
noncomputable def cutFixed (tc pc : ℝ × ℝ) : List Particle → List Particle
  | [] => []
  | p :: ps =>
      if selectedFixed tc pc p then p :: cutFixed tc pc ps else cutFixed tc pc ps

open Classical in
/-- The halo-centered cut loop (processLC.cpp:764-804). -/
noncomputable def cutHalo (k : Vec3) (B : ℝ) (tc pc : ℝ × ℝ) :
    List Particle → List Particle
  | [] => []
  | p :: ps =>
      if selectedHalo k B tc pc p then p :: cutHalo k B tc pc ps
      else cutHalo k B tc pc ps

/-- The write buffers `w` across the step loop: `Buffers_write w` is
declared outside the loop (processLC.cpp:66) and its data vectors are never
cleared inside it, so each step's selections are appended onto everything
accumulated so far. -/
noncomputable def stepLoopW (tc pc : ℝ × ℝ) (parts : List (List Particle)) :
    List Particle :=
  parts.foldl (fun acc part => acc ++ cutFixed tc pc part) []

/-- `cutout_size = int(w.a.size())` announced to the all-gather after step
`t` (processLC.cpp:352): the length of the accumulated write buffer. -/
noncomputable def announcedCount (tc pc : ℝ × ℝ) (parts : List (List Particle))
    (t : ℕ) : ℕ :=
  (stepLoopW tc pc (parts.take t)).length

/-! ## Halo-centered selection window (processLC.cpp:506-536) -/

/-- `dtheta = atan(halfBoxLength / halo_r)` with `halfBoxLength =
boxLength / 2.0` and `halo_r = sqrt(|halo_pos|²)` (processLC.cpp:506-527). -/
noncomputable def dthetaHalo (p : Vec3) (L : ℝ) : ℝ :=
  Real.arctan (L / 2 / norm3 p)

/-- `theta_cut = ((PI/2 - dtheta)·180/PI·ARCSEC, (PI/2 + dtheta)·180/PI·ARCSEC)`
(processLC.cpp:531-533). -/
noncomputable def thetaCutHalo (p : Vec3) (L : ℝ) : ℝ × ℝ :=
  ((Real.pi / 2 - dthetaHalo p L) * 180 / Real.pi * ARCSEC,
   (Real.pi / 2 + dthetaHalo p L) * 180 / Real.pi * ARCSEC)

/-- `phi_cut = ((0 - dphi)·180/PI·ARCSEC, (0 + dphi)·180/PI·ARCSEC)` with
`dphi = dtheta` (processLC.cpp:528,534-536). -/
noncomputable def phiCutHalo (p : Vec3) (L : ℝ) : ℝ × ℝ :=
  ((0 - dthetaHalo p L) * 180 / Real.pi * ARCSEC,
   (0 + dthetaHalo p L) * 180 / Real.pi * ARCSEC)

/-! ## Helper lemmas on the offset-exchange model -/

theorem offsetLoop_sz (c : CVecInt) :
    ∀ (s : ℕ) (o : CVecInt) (j : ℕ), (offsetLoop c o j s).sz = o.sz := by
  intro s
  induction s with
  | zero => intro o j; rfl
  | succ s ih => intro o j; simpa [offsetLoop, CVecInt.setIdx] using ih (o.setIdx j _) (j + 1)

theorem offsetLoop_store_lt (c : CVecInt) :
    ∀ (s : ℕ) (o : CVecInt) (j i : ℕ), i < j →
      (offsetLoop c o j s).store i = o.store i := by
  intro s
  induction s with
  | zero => intro o j i _; rfl
  | succ s ih =>
    intro o j i hij
    have h1 : i < j + 1 := Nat.lt_succ_of_lt hij
    calc (offsetLoop c (o.setIdx j (o.store (j - 1) + c.store (j - 1))) (j + 1) s).store i
        = (o.setIdx j (o.store (j - 1) + c.store (j - 1))).store i := ih _ (j + 1) i h1
      _ = o.store i := by simp [CVecInt.setIdx, Nat.ne_of_lt hij]

theorem offsetLoop_store_rec (c : CVecInt) :
    ∀ (s : ℕ) (o : CVecInt) (j : ℕ), 0 < j →
      ∀ i, j ≤ i → i < j + s →
        (offsetLoop c o j s).store i
          = (offsetLoop c o j s).store (i - 1) + c.store (i - 1) := by
  intro s
  induction s with
  | zero =>
    intro o j _ i hji hlt
    omega
  | succ s ih =>
    intro o j hj i hji hlt
    by_cases hij : i = j
    · subst hij
      have hi1 : i - 1 < i + 1 := by omega
      have hii : i < i + 1 := Nat.lt_succ_self i
      have hstep :
          (offsetLoop c (o.setIdx i (o.store (i - 1) + c.store (i - 1))) (i + 1) s).store i
            = o.store (i - 1) + c.store (i - 1) := by
        rw [offsetLoop_store_lt c s _ (i + 1) i hii]
        simp [CVecInt.setIdx]
      have hprev :
          (offsetLoop c (o.setIdx i (o.store (i - 1) + c.store (i - 1))) (i + 1) s).store (i - 1)
            = o.store (i - 1) := by
        rw [offsetLoop_store_lt c s _ (i + 1) (i - 1) hi1]
        have : i - 1 ≠ i := by omega
        simp [CVecInt.setIdx, this]
      show (offsetLoop c (o.setIdx i _) (i + 1) s).store i
          = (offsetLoop c (o.setIdx i _) (i + 1) s).store (i - 1) + c.store (i - 1)
      rw [hstep, hprev]
    · have hji1 : j + 1 ≤ i := by omega
      have hlt1 : i < (j + 1) + s := by omega
      exact ih (o.setIdx j (o.store (j - 1) + c.store (j - 1))) (j + 1) (by omega) i hji1 hlt1

theorem offsetExchange_store_zero (n : ℕ) (counts : ℕ → ℤ) :
    (offsetExchange n counts).2.store 0 = 0 := by
  show (offsetLoop _ _ 1 (n - 1)).store 0 = 0
  rw [offsetLoop_store_lt _ (n - 1) _ 1 0 Nat.zero_lt_one]
  simp [CVecInt.setIdx, CVecInt.clear, CVecInt.init, CVecInt.allgatherInto]

theorem offsetExchange_count (n : ℕ) (counts : ℕ → ℤ) (i : ℕ) (hi : i < n) :
    (offsetExchange n counts).1.store i = counts i := by
  simp [offsetExchange, CVecInt.allgatherInto, CVecInt.clear, CVecInt.init, hi]

theorem offsetExchange_store_rec (n : ℕ) (counts : ℕ → ℤ) (i : ℕ)
    (h0 : 0 < i) (hn : i < n) :
    (offsetExchange n counts).2.store i
      = (offsetExchange n counts).2.store (i - 1)
        + (offsetExchange n counts).1.store (i - 1) := by
  show (offsetLoop _ _ 1 (n - 1)).store i = _
  exact offsetLoop_store_rec _ (n - 1) _ 1 Nat.zero_lt_one i h0 (by omega)

theorem offsetExchange_sz (n : ℕ) (counts : ℕ → ℤ) :
    (offsetExchange n counts).2.sz = 0 := by
  show (offsetLoop _ _ 1 (n - 1)).sz = 0
  rw [offsetLoop_sz]
  rfl

/-! ## Filter loop lemmas -/

theorem mem_cutFixed (tc pc : ℝ × ℝ) (ps : List Particle) (p : Particle) :
    p ∈ cutFixed tc pc ps ↔ p ∈ ps ∧ selectedFixed tc pc p := by
  induction ps with
  | nil => simp [cutFixed]
  | cons q qs ih =>
    by_cases h : selectedFixed tc pc q
    · rw [cutFixed, if_pos h]
      constructor
      · intro hmem0
        rcases List.mem_cons.mp hmem0 with rfl | hmem
        · exact ⟨List.mem_cons_self p qs, h⟩
        · exact ⟨List.mem_cons_of_mem q (ih.mp hmem).1, (ih.mp hmem).2⟩
      · rintro ⟨hmem, hsel⟩
        rcases List.mem_cons.mp hmem with rfl | hmem
        · exact List.mem_cons_self p _
        · exact List.mem_cons_of_mem q (ih.mpr ⟨hmem, hsel⟩)
    · rw [cutFixed, if_neg h]
      constructor
      · intro hmem
        exact ⟨List.mem_cons_of_mem q (ih.mp hmem).1, (ih.mp hmem).2⟩
      · rintro ⟨hmem, hsel⟩
        rcases List.mem_cons.mp hmem with rfl | hmem
        · exact absurd hsel h
        · exact ih.mpr ⟨hmem, hsel⟩

theorem mem_cutHalo (k : Vec3) (B : ℝ) (tc pc : ℝ × ℝ) (ps : List Particle)
    (p : Particle) :
    p ∈ cutHalo k B tc pc ps ↔ p ∈ ps ∧ selectedHalo k B tc pc p := by
  induction ps with
  | nil => simp [cutHalo]
  | cons q qs ih =>
    by_cases h : selectedHalo k B tc pc q
    · rw [cutHalo, if_pos h]
      constructor
      · intro hmem0
        rcases List.mem_cons.mp hmem0 with rfl | hmem
        · exact ⟨List.mem_cons_self p qs, h⟩
        · exact ⟨List.mem_cons_of_mem q (ih.mp hmem).1, (ih.mp hmem).2⟩
      · rintro ⟨hmem, hsel⟩
        rcases List.mem_cons.mp hmem with rfl | hmem
        · exact List.mem_cons_self p _
        · exact List.mem_cons_of_mem q (ih.mpr ⟨hmem, hsel⟩)
    · rw [cutHalo, if_neg h]
      constructor
      · intro hmem
        exact ⟨List.mem_cons_of_mem q (ih.mp hmem).1, (ih.mp hmem).2⟩
      · rintro ⟨hmem, hsel⟩
        rcases List.mem_cons.mp hmem with rfl | hmem
        · exact absurd hsel h
        · exact ih.mpr ⟨hmem, hsel⟩

theorem cutFixed_sublist (tc pc : ℝ × ℝ) (ps : List Particle) :
    List.Sublist (cutFixed tc pc ps) ps := by
  induction ps with
  | nil => simp [cutFixed]
  | cons q qs ih =>
    by_cases h : selectedFixed tc pc q
    · rw [cutFixed, if_pos h]; exact List.Sublist.cons₂ q ih
    · rw [cutFixed, if_neg h]; exact List.Sublist.cons q ih

theorem cutHalo_sublist (k : Vec3) (B : ℝ) (tc pc : ℝ × ℝ) (ps : List Particle) :
    List.Sublist (cutHalo k B tc pc ps) ps := by
  induction ps with
  | nil => simp [cutHalo]
  | cons q qs ih =>
    by_cases h : selectedHalo k B tc pc q
    · rw [cutHalo, if_pos h]; exact List.Sublist.cons₂ q ih
    · rw [cutHalo, if_neg h]; exact List.Sublist.cons q ih

/-! ## Rotation algebra -/

theorem rotationMatrix_zero_axis (B : ℝ) :
    rotationMatrix (crossProdMatrix ⟨0, 0, 0⟩) B = idMat3 := by
  simp only [rotationMatrix, crossProdMatrix, squareMat, scalarMultiply, idMat3,
    Mat3.mk.injEq]
  norm_num

theorem matVecMul_id (v : Vec3) : matVecMul idMat3 v = v := by
  obtain ⟨vx, vy, vz⟩ := v
  simp only [matVecMul, idMat3, Vec3.mk.injEq]
  norm_num

theorem rotate_zero_axis (B : ℝ) (v : Vec3) : rotate ⟨0, 0, 0⟩ B v = v := by
  rw [rotate, rotationMatrix_zero_axis, matVecMul_id]

theorem rotate_unit_apply (k : Vec3) (B : ℝ) (v : Vec3) (hk : dotv k k = 1) :
    rotate k B v =
      ⟨Real.cos B * v.x + Real.sin B * (k.y * v.z - k.z * v.y)
          + (1 - Real.cos B) * dotv k v * k.x,
        Real.cos B * v.y + Real.sin B * (k.z * v.x - k.x * v.z)
          + (1 - Real.cos B) * dotv k v * k.y,
        Real.cos B * v.z + Real.sin B * (k.x * v.y - k.y * v.x)
          + (1 - Real.cos B) * dotv k v * k.z⟩ := by
  obtain ⟨kx, ky, kz⟩ := k
  obtain ⟨vx, vy, vz⟩ := v
  simp only [dotv] at hk ⊢
  simp only [rotate, rotationMatrix, crossProdMatrix, squareMat, scalarMultiply,
    matVecMul, Vec3.mk.injEq]
  refine ⟨?_, ?_, ?_⟩
  · linear_combination ((Real.cos B - 1) * vx) * hk
  · linear_combination ((Real.cos B - 1) * vy) * hk
  · linear_combination ((Real.cos B - 1) * vz) * hk

theorem dotv_rotate_unit (k : Vec3) (B : ℝ) (v : Vec3) (hk : dotv k k = 1) :
    dotv (rotate k B v) (rotate k B v) = dotv v v := by
  rw [rotate_unit_apply k B v hk]
  obtain ⟨kx, ky, kz⟩ := k
  obtain ⟨vx, vy, vz⟩ := v
  have hs : Real.sin B ^ 2 + Real.cos B ^ 2 = 1 := Real.sin_sq_add_cos_sq B
  simp only [dotv] at hk ⊢
  linear_combination
    ((Real.sin B) ^ 2 * (vx * vx + vy * vy + vz * vz)
        + (1 - Real.cos B) ^ 2 * (kx * vx + ky * vy + kz * vz) ^ 2) * hk
      + ((vx * vx + vy * vy + vz * vz) - (kx * vx + ky * vy + kz * vz) ^ 2) * hs

theorem dotv_self_nonneg (v : Vec3) : 0 ≤ dotv v v := by
  simp only [dotv]
  nlinarith [sq_nonneg v.x, sq_nonneg v.y, sq_nonneg v.z]

theorem normCross_unit (a b : Vec3)
    (hm : Real.sqrt (dotv (crossv a b) (crossv a b)) ≠ 0) :
    dotv (normCross a b) (normCross a b) = 1 := by
  have hnn : 0 ≤ dotv (crossv a b) (crossv a b) := dotv_self_nonneg _
  have hsq : Real.sqrt (dotv (crossv a b) (crossv a b))
      * Real.sqrt (dotv (crossv a b) (crossv a b))
      = dotv (crossv a b) (crossv a b) := Real.mul_self_sqrt hnn
  unfold normCross
  rw [if_neg hm]
  simp only [dotv] at hm hsq ⊢
  field_simp [hm]
  linarith [hsq]

theorem normCross_unit_or_zero (a b : Vec3) :
    dotv (normCross a b) (normCross a b) = 1 ∨ normCross a b = ⟨0, 0, 0⟩ := by
  by_cases hm : Real.sqrt (dotv (crossv a b) (crossv a b)) = 0
  · right
    unfold normCross
    rw [if_pos hm]
  · exact Or.inl (normCross_unit a b hm)

theorem norm3_axis (r : ℝ) (hr : 0 ≤ r) : norm3 ⟨r, 0, 0⟩ = r := by
  rw [norm3, show dotv ⟨r, 0, 0⟩ ⟨r, 0, 0⟩ = r * r from by simp [dotv],
    Real.sqrt_mul_self hr]

theorem norm3_nonneg (v : Vec3) : 0 ≤ norm3 v := Real.sqrt_nonneg _

theorem norm3_rotate_normCross (a b : Vec3) (B : ℝ) (v : Vec3) :
    norm3 (rotate (normCross a b) B v) = norm3 v := by
  rcases normCross_unit_or_zero a b with h | h
  · rw [norm3, dotv_rotate_unit _ B v h, norm3]
  · rw [h, rotate_zero_axis]

theorem haloK_axis (px : ℝ) : haloK ⟨px, 0, 0⟩ = ⟨0, 0, 0⟩ := by
  unfold haloK normCross
  have hc : crossv ⟨px, 0, 0⟩ ⟨norm3 ⟨px, 0, 0⟩, 0, 0⟩ = ⟨0, 0, 0⟩ := by
    show Vec3.mk _ _ _ = _
    rw [Vec3.mk.injEq]
    refine ⟨by ring, by ring, by ring⟩
  rw [hc, show dotv (⟨0, 0, 0⟩ : Vec3) ⟨0, 0, 0⟩ = 0 from by simp [dotv],
    Real.sqrt_zero, if_pos rfl]

theorem haloB_pos_axis (a : ℝ) (ha : 0 < a) : haloB ⟨a, 0, 0⟩ = 0 := by
  unfold haloB vecPairAngle
  rw [norm3_axis a ha.le, norm3_axis a ha.le,
    show dotv ⟨a, 0, 0⟩ ⟨a, 0, 0⟩ = a * a from by simp [dotv],
    show a * a / (a * a) = 1 from by field_simp, Real.arccos_one]

theorem rotate_halo_aligns (p : Vec3)
    (h : 0 < p.y * p.y + p.z * p.z ∨ (0 < p.x ∧ p.y = 0 ∧ p.z = 0)) :
    rotate (haloK p) (haloB p) p = ⟨norm3 p, 0, 0⟩ := by
  obtain ⟨px, py, pz⟩ := p
  rcases h with hw | ⟨hx, hy, hz⟩
  case mk.inr.intro.intro =>
    simp only at hx hy hz
    subst hy; subst hz
    rw [haloK_axis, rotate_zero_axis, norm3_axis px hx.le]
  case mk.inl =>
    simp only at hw
    have hyz : (0 : ℝ) < py * py + pz * pz := hw
    have hd : (0 : ℝ) < px * px + py * py + pz * pz := by nlinarith [sq_nonneg px]
    have hdot : dotv ⟨px, py, pz⟩ ⟨px, py, pz⟩ = px * px + py * py + pz * pz := rfl
    have hρpos : 0 < norm3 ⟨px, py, pz⟩ := by
      rw [norm3, hdot]; exact Real.sqrt_pos.mpr hd
    set ρ := norm3 ⟨px, py, pz⟩ with hρdef
    have hρ2 : ρ * ρ = px * px + py * py + pz * pz := by
      rw [hρdef, norm3, hdot]; exact Real.mul_self_sqrt hd.le
    have hρne : ρ ≠ 0 := ne_of_gt hρpos
    set w := Real.sqrt (py * py + pz * pz) with hwdef
    have hwpos : 0 < w := Real.sqrt_pos.mpr hyz
    have hw2 : w * w = py * py + pz * pz := Real.mul_self_sqrt hyz.le
    have hwne : w ≠ 0 := ne_of_gt hwpos
    have hcross : crossv ⟨px, py, pz⟩ ⟨ρ, 0, 0⟩ = ⟨0, pz * ρ, -(py * ρ)⟩ := by
      show Vec3.mk _ _ _ = _
      rw [Vec3.mk.injEq]
      refine ⟨by ring, by ring, by ring⟩
    have hdax : dotv ⟨0, pz * ρ, -(py * ρ)⟩ ⟨0, pz * ρ, -(py * ρ)⟩
        = (ρ * w) * (ρ * w) := by
      show (0 : ℝ) * 0 + pz * ρ * (pz * ρ) + -(py * ρ) * -(py * ρ) = (ρ * w) * (ρ * w)
      linear_combination (-(ρ * ρ)) * hw2
    have hmval : Real.sqrt (dotv (crossv ⟨px, py, pz⟩ ⟨ρ, 0, 0⟩)
        (crossv ⟨px, py, pz⟩ ⟨ρ, 0, 0⟩)) = ρ * w := by
      rw [hcross, hdax]
      exact Real.sqrt_mul_self (by positivity)
    have hmne : Real.sqrt (dotv (crossv ⟨px, py, pz⟩ ⟨ρ, 0, 0⟩)
        (crossv ⟨px, py, pz⟩ ⟨ρ, 0, 0⟩)) ≠ 0 := by
      rw [hmval]; positivity
    have hkdef : haloK ⟨px, py, pz⟩ = ⟨0, pz / w, -(py / w)⟩ := by
      unfold haloK normCross
      rw [← hρdef, if_neg hmne, hmval, hcross]
      show Vec3.mk _ _ _ = _
      rw [Vec3.mk.injEq]
      refine ⟨by field_simp, by field_simp; ring, by field_simp; ring⟩
    have hq : norm3 ⟨ρ, 0, 0⟩ = ρ := norm3_axis ρ hρpos.le
    have hdpq : dotv ⟨px, py, pz⟩ ⟨ρ, 0, 0⟩ = px * ρ := by
      show px * ρ + py * 0 + pz * 0 = px * ρ
      ring
    have hBdef : haloB ⟨px, py, pz⟩ = Real.arccos (px / ρ) := by
      unfold haloB vecPairAngle
      rw [← hρdef, hdpq, hq]
      congr 1
      field_simp
      ring
    have hxle : px ≤ ρ := by nlinarith [hρ2, hyz, hρpos]
    have hxge : -ρ ≤ px := by nlinarith [hρ2, hyz, hρpos]
    have hcos : Real.cos (haloB ⟨px, py, pz⟩) = px / ρ := by
      rw [hBdef]
      refine Real.cos_arccos ?_ ?_
      · rw [le_div_iff₀ hρpos]; linarith
      · rw [div_le_one hρpos]; exact hxle
    have hsin : Real.sin (haloB ⟨px, py, pz⟩) = w / ρ := by
      rw [hBdef, Real.sin_arccos]
      have h1 : (1 : ℝ) - (px / ρ) ^ 2 = (w / ρ) * (w / ρ) := by
        field_simp
        linear_combination (ρ * ρ) * hρ2 - (ρ * ρ) * hw2
      rw [h1]
      exact Real.sqrt_mul_self (by positivity)
    have hkunit : dotv (haloK ⟨px, py, pz⟩) (haloK ⟨px, py, pz⟩) = 1 := by
      rw [hkdef]
      show (0 : ℝ) * 0 + pz / w * (pz / w) + -(py / w) * -(py / w) = 1
      field_simp
      linarith [hw2]
    rw [rotate_unit_apply _ _ _ hkunit, hkdef, hcos, hsin]
    show Vec3.mk _ _ _ = _
    rw [Vec3.mk.injEq]
    simp only [dotv]
    refine ⟨?_, ?_, ?_⟩
    · field_simp
      linear_combination (-(w * ρ)) * hρ2
    · field_simp
      ring
    · field_simp
      ring

/-! ## Concrete angle evaluations -/

theorem sphTheta_340 : sphTheta 3 4 0 = 324000 := by
  unfold sphTheta ARCSEC
  rw [zero_div, Real.arccos_zero]
  field_simp
  ring

/-- A record at position (1,1,1) with unit scale factor and zero ids. -/
noncomputable def P111 : Particle := ⟨1, 1, 1, 0, 0, 0, 1, 0, 0, 0, 0⟩

theorem one_lt_sqrt_three : (1 : ℝ) < Real.sqrt 3 := by
  rw [show (1 : ℝ) = Real.sqrt 1 from Real.sqrt_one.symm]
  exact Real.sqrt_lt_sqrt (by norm_num) (by norm_num)

theorem pi_quarter_deg : Real.pi / 4 * 180 / Real.pi * (3600 : ℝ) = 162000 := by
  field_simp
  ring

theorem pi_full_deg : Real.pi * 180 / Real.pi * (3600 : ℝ) = 648000 := by
  field_simp
  norm_num

theorem selectedFixed_P111 :
    selectedFixed ((0 : ℝ), 648000) ((-324000 : ℝ), 324000) P111 := by
  have hsq3 : Real.sqrt ((1 : ℝ) * 1 + 1 * 1 + 1 * 1) = Real.sqrt 3 := by norm_num
  have hs3pos : (0 : ℝ) < Real.sqrt 3 := by positivity
  have harg : (1 : ℝ) / Real.sqrt 3 < 1 := by
    rw [div_lt_one hs3pos]
    exact one_lt_sqrt_three
  have hargpos : (0 : ℝ) < 1 / Real.sqrt 3 := by positivity
  have hA1 : 0 < Real.arccos ((1 : ℝ) / Real.sqrt 3) := Real.arccos_pos.mpr harg
  have hA2 : Real.arccos ((1 : ℝ) / Real.sqrt 3) < Real.pi := by
    have hhalf : Real.arccos ((1 : ℝ) / Real.sqrt 3) < Real.pi / 2 :=
      Real.arccos_lt_pi_div_two.mpr hargpos
    linarith [Real.pi_pos]
  have hθdef : sphTheta P111.x P111.y P111.z
      = Real.arccos ((1 : ℝ) / Real.sqrt 3) * 180 / Real.pi * 3600 := by
    show Real.arccos ((1 : ℝ) / Real.sqrt ((1 : ℝ) * 1 + 1 * 1 + 1 * 1))
        * 180 / Real.pi * ARCSEC = _
    rw [hsq3, ARCSEC]
  have hφdef : sphPhi P111.x P111.y = 162000 := by
    show Real.arctan ((1 : ℝ) / 1) * 180 / Real.pi * ARCSEC = _
    rw [show (1 : ℝ) / 1 = 1 from by norm_num, Real.arctan_one, ARCSEC]
    exact pi_quarter_deg
  refine ⟨⟨by norm_num [P111], by norm_num [P111], by norm_num [P111]⟩, ?_, ?_, ?_, ?_⟩
  · rw [hθdef]
    show (0 : ℝ) < _
    have h180 : (0 : ℝ) < Real.arccos ((1 : ℝ) / Real.sqrt 3) * 180 := by linarith
    have := div_pos h180 Real.pi_pos
    linarith
  · rw [hθdef]
    show _ < (648000 : ℝ)
    rw [← pi_full_deg]
    have h1 : Real.arccos ((1 : ℝ) / Real.sqrt 3) * 180 < Real.pi * 180 := by linarith
    have h2 : Real.arccos ((1 : ℝ) / Real.sqrt 3) * 180 / Real.pi
        < Real.pi * 180 / Real.pi := (div_lt_div_iff_of_pos_right Real.pi_pos).mpr h1
    linarith
  · rw [hφdef]; norm_num
  · rw [hφdef]; norm_num

theorem cutFixed_P111 :
    cutFixed ((0 : ℝ), 648000) ((-324000 : ℝ), 324000) [P111] = [P111] := by
  rw [cutFixed, if_pos selectedFixed_P111, cutFixed]

/-! ## Write reconstruction lemmas -/

theorem writeAt_append {α : Type} (f d : List α) :
    writeAt f f.length d = f ++ d := by
  simp [writeAt, List.drop_eq_nil_of_le (Nat.le_add_right _ _)]

theorem writeSeq_shift {α : Type} :
    ∀ (bufs : List (List α)) (f : List α),
      writeSeq f (((npOffsets (bufs.map List.length)).map (fun o => f.length + o)).zip bufs)
        = f ++ bufs.flatten := by
  intro bufs
  induction bufs with
  | nil => intro f; simp [npOffsets, writeSeq]
  | cons b bs ih =>
    intro f
    have hmap :
        ((npOffsets ((b :: bs).map List.length)).map (fun o => f.length + o))
          = (f.length + 0) :: ((npOffsets (bs.map List.length)).map
              (fun o => (f ++ b).length + o)) := by
      simp only [List.map_cons, npOffsets, List.map_map]
      refine congrArg (fun t => (f.length + 0) :: t) ?_
      refine List.map_congr_left ?_
      intro o _
      simp [Function.comp, List.length_append]
      omega
    rw [hmap]
    show writeSeq (writeAt f (f.length + 0) b)
        (((npOffsets (bs.map List.length)).map (fun o => (f ++ b).length + o)).zip bs)
        = f ++ (b :: bs).flatten
    rw [Nat.add_zero, writeAt_append, ih (f ++ b)]
    simp

theorem writeAll_eq_join {α : Type} (bufs : List (List α)) :
    writeAll bufs = bufs.flatten := by
  have h := writeSeq_shift bufs ([] : List α)
  simpa [writeAll] using h

/-! ## Claim theorems -/

/-- C1: a record of the local partition is appended to the output batch if
and only if its raw position satisfies x>0, y>0, z>0 and the derived angles
(computed from the rotated position in halo-centered mode, from the raw
position in fixed-window mode) satisfy all four window bounds with strict
inequality; in particular a record whose theta equals a bound exactly is
excluded. -/
theorem c1_strict_window_filter :
    (∀ (tc pc : ℝ × ℝ) (ps : List Particle) (p : Particle),
      p ∈ cutFixed tc pc ps ↔
        p ∈ ps ∧ (0 < p.x ∧ 0 < p.y ∧ 0 < p.z) ∧
          tc.1 < sphTheta p.x p.y p.z ∧ sphTheta p.x p.y p.z < tc.2 ∧
          pc.1 < sphPhi p.x p.y ∧ sphPhi p.x p.y < pc.2) ∧
    (∀ (k : Vec3) (B : ℝ) (tc pc : ℝ × ℝ) (ps : List Particle) (p : Particle),
      p ∈ cutHalo k B tc pc ps ↔
        p ∈ ps ∧ (0 < p.x ∧ 0 < p.y ∧ 0 < p.z) ∧
          tc.1 < sphTheta (rotPos k B p).x (rotPos k B p).y (rotPos k B p).z ∧
          sphTheta (rotPos k B p).x (rotPos k B p).y (rotPos k B p).z < tc.2 ∧
          pc.1 < sphPhi (rotPos k B p).x (rotPos k B p).y ∧
          sphPhi (rotPos k B p).x (rotPos k B p).y < pc.2) ∧
    (∀ (tc pc : ℝ × ℝ) (ps : List Particle) (p : Particle),
      sphTheta p.x p.y p.z = tc.1 → p ∉ cutFixed tc pc ps) := by
  refine ⟨?_, ?_, ?_⟩
  · intro tc pc ps p
    rw [mem_cutFixed]
    unfold selectedFixed octant windowTest
    tauto
  · intro k B tc pc ps p
    rw [mem_cutHalo]
    unfold selectedHalo octant windowTest
    tauto
  · intro tc pc ps p hθ hmem
    obtain ⟨-, hsel⟩ := (mem_cutFixed tc pc ps p).mp hmem
    unfold selectedFixed windowTest at hsel
    obtain ⟨-, hlt, -⟩ := hsel
    rw [hθ] at hlt
    exact lt_irrefl _ hlt

/-- Witness for C1: a record whose theta is exactly the lower bound 324000
arcsec (position (3,4,0), theta = 90°) is excluded from the cut with
theta window (324000, 648000). -/
theorem c1_strict_window_filter_witness :
    sphTheta (3 : ℝ) 4 0 = 324000 ∧
      (⟨3, 4, 0, 0, 0, 0, 1, 0, 0, 0, 0⟩ : Particle)
        ∉ cutFixed ((324000 : ℝ), 648000) ((-324000 : ℝ), 324000)
          [⟨3, 4, 0, 0, 0, 0, 1, 0, 0, 0, 0⟩] :=
  ⟨sphTheta_340,
    c1_strict_window_filter.2.2 ((324000 : ℝ), 648000) ((-324000 : ℝ), 324000)
      [⟨3, 4, 0, 0, 0, 0, 1, 0, 0, 0, 0⟩] ⟨3, 4, 0, 0, 0, 0, 1, 0, 0, 0, 0⟩
      sphTheta_340⟩

/-- C2 (code-bug evaluation): per step the id buffer is written twice — an
8-byte-element write at byte offset 8·offset[rank] followed by a second
4-byte-element write of the same buffer at byte offset 4·offset[rank] — for
12·n bytes in total, not the single 8-byte-element write the claim
describes. -/
theorem c2_id_write_events (off n : ℕ) :
    (idFileWrites off n).length = 2 ∧
      (idFileWrites off n).map WriteEvent.elemBytes = [8, 4] ∧
      ((idFileWrites off n).map (fun e => e.elemBytes * e.elemCount)).sum = 12 * n ∧
      idFileWrites off n ≠ [⟨8 * off, 8, n⟩] := by
  refine ⟨rfl, rfl, ?_, ?_⟩
  · show 8 * n + (4 * n + 0) = 12 * n
    ring
  · intro h
    have := congrArg List.length h
    simp [idFileWrites] at this

/-- C3 (code-bug evaluation): with two consecutive processed steps whose
partitions each yield the single selected record P111, the count announced
to the offset exchange after the second step is the accumulated buffer
length 2, not the 1 record selected from that step alone — the write
buffers are never cleared between steps. -/
theorem c3_count_carryover :
    announcedCount ((0 : ℝ), 648000) ((-324000 : ℝ), 324000) [[P111], [P111]] 2 = 2 ∧
      (cutFixed ((0 : ℝ), 648000) ((-324000 : ℝ), 324000) [P111]).length = 1 ∧
      announcedCount ((0 : ℝ), 648000) ((-324000 : ℝ), 324000) [[P111], [P111]] 2
        ≠ (cutFixed ((0 : ℝ), 648000) ((-324000 : ℝ), 324000) [P111]).length := by
  have h2 : announcedCount ((0 : ℝ), 648000) ((-324000 : ℝ), 324000)
      [[P111], [P111]] 2 = 2 := by
    unfold announcedCount stepLoopW
    rw [show List.take 2 [[P111], [P111]] = [[P111], [P111]] from rfl]
    simp [cutFixed_P111]
  have h1 : (cutFixed ((0 : ℝ), 648000) ((-324000 : ℝ), 324000) [P111]).length = 1 := by
    rw [cutFixed_P111]
    rfl
  refine ⟨h2, h1, ?_⟩
  rw [h2, h1]
  norm_num

/-- C4 (amended): after each step's offset exchange the stored values satisfy
offset[0] = 0 and offset[i] = offset[i-1] + count[i-1] for every rank
0 < i < numranks, and (the gathered counts being buffer sizes, hence
nonnegative) the stored offsets are non-decreasing; however the offset
vector's logical length after the exchange is 0, not numranks — the values
survive only in the capacity retained from the initial resize. -/
theorem c4_offset_recurrence (n : ℕ) (counts : ℕ → ℤ)
    (hc : ∀ i, 0 ≤ counts i) :
    (offsetExchange n counts).2.store 0 = 0 ∧
    (∀ i, 0 < i → i < n →
      (offsetExchange n counts).2.store i
        = (offsetExchange n counts).2.store (i - 1)
          + (offsetExchange n counts).1.store (i - 1)) ∧
    (∀ i, 0 < i → i < n →
      (offsetExchange n counts).2.store (i - 1)
        ≤ (offsetExchange n counts).2.store i) ∧
    (offsetExchange n counts).2.sz = 0 := by
  refine ⟨offsetExchange_store_zero n counts, ?_, ?_, offsetExchange_sz n counts⟩
  · intro i h0 hn
    exact offsetExchange_store_rec n counts i h0 hn
  · intro i h0 hn
    rw [offsetExchange_store_rec n counts i h0 hn,
      offsetExchange_count n counts (i - 1) (by omega)]
    have := hc (i - 1)
    linarith

/-- Witness for C4 at numranks = 2 with all counts 3. -/
theorem c4_offset_recurrence_witness :
    (∀ i : ℕ, (0 : ℤ) ≤ (fun _ => (3 : ℤ)) i) ∧
      ((offsetExchange 2 (fun _ => 3)).2.store 0 = 0 ∧
      (∀ i, 0 < i → i < 2 →
        (offsetExchange 2 (fun _ => 3)).2.store i
          = (offsetExchange 2 (fun _ => 3)).2.store (i - 1)
            + (offsetExchange 2 (fun _ => 3)).1.store (i - 1)) ∧
      (∀ i, 0 < i → i < 2 →
        (offsetExchange 2 (fun _ => 3)).2.store (i - 1)
          ≤ (offsetExchange 2 (fun _ => 3)).2.store i) ∧
      (offsetExchange 2 (fun _ => 3)).2.sz = 0) :=
  ⟨fun _ => by norm_num, c4_offset_recurrence 2 (fun _ => 3) (fun _ => by norm_num)⟩

/-- C4 counterexample: at numranks = 2, the offset array does not hold
numranks entries after the exchange — its logical length is 0. -/
theorem c4_size_counterexample :
    (offsetExchange 2 (fun _ => 1)).2.sz = 0 ∧
      (offsetExchange 2 (fun _ => 1)).2.sz ≠ 2 := by
  have h := offsetExchange_sz 2 (fun _ => 1)
  refine ⟨h, ?_⟩
  rw [h]
  norm_num

/-- C5 counterexample: with a process group of 2 ranks, the offset array's
logical length at the moment of the `np_offset[0] = 0` access is 0, not at
least numranks — the access is out of bounds with respect to the logical
size. -/
theorem c5_oob_counterexample : ¬ (2 ≤ (clearedOffsetVec 2).sz) := by
  decide

/-- C5 (amended): every index the offset-exchange phase accesses lies below
numranks, which is within the capacity both arrays retain from the initial
resize; but the arrays' logical lengths at access time are 0 (cleared and
never resized back), so for any positive numranks the accesses exceed the
logical size. -/
theorem c5_cleared_access (n : ℕ) :
    (clearedOffsetVec n).sz = 0 ∧ (clearedCountVec n).sz = 0 ∧
    (clearedOffsetVec n).cap = n ∧ (clearedCountVec n).cap = n ∧
    (∀ i, i < n → i < (clearedOffsetVec n).cap) ∧
    (0 < n → ¬ (n ≤ (clearedOffsetVec n).sz)) := by
  refine ⟨rfl, rfl, rfl, rfl, fun i hi => hi, fun hn => ?_⟩
  show ¬ (n ≤ 0)
  omega

/-- Witness for C5 at numranks = 2. -/
theorem c5_cleared_access_witness :
    (0 : ℕ) < 2 ∧ ¬ (2 ≤ (clearedOffsetVec 2).sz) :=
  ⟨by decide, (c5_cleared_access 2).2.2.2.2.2 (by decide)⟩

/-- C6: the selection is a stable filter — the output batch is a sublist of
the input partition, in both modes — and writing every rank's buffer
contiguously at its exclusive-prefix-sum offset reconstructs the rank-major,
within-rank-original concatenation; e.g. counts [3,5] give offsets [0,3] and
an 8-element file holding rank 0's three elements first, in order. -/
theorem c6_stable_filter_layout :
    (∀ (tc pc : ℝ × ℝ) (ps : List Particle), List.Sublist (cutFixed tc pc ps) ps) ∧
    (∀ (k : Vec3) (B : ℝ) (tc pc : ℝ × ℝ) (ps : List Particle),
      List.Sublist (cutHalo k B tc pc ps) ps) ∧
    (∀ (α : Type) (bufs : List (List α)), writeAll bufs = bufs.flatten) ∧
    npOffsets [3, 5] = [0, 3] ∧
    writeAll [[1, 2, 3], [4, 5, 6, 7, 8]] = ([1, 2, 3, 4, 5, 6, 7, 8] : List ℤ) := by
  refine ⟨cutFixed_sublist, cutHalo_sublist, fun α bufs => writeAll_eq_join bufs, ?_, ?_⟩
  · rfl
  · decide

/-- C7: in halo-centered mode, with r = |halo position| and half-angle
dθ = atan((L/2)/r), the window is θ ∈ (90°−dθ, 90°+dθ) and φ ∈ (−dθ, dθ) in
degrees, converted to arcseconds by multiplying degrees by 3600; a halo at
(100,0,0) with L = 2 gives dθ = atan(1/100). -/
theorem c7_halo_window (p : Vec3) (L : ℝ) :
    dthetaHalo p L = Real.arctan (L / 2 / norm3 p) ∧
    (thetaCutHalo p L).1 = (90 - dthetaHalo p L * (180 / Real.pi)) * 3600 ∧
    (thetaCutHalo p L).2 = (90 + dthetaHalo p L * (180 / Real.pi)) * 3600 ∧
    (phiCutHalo p L).1 = -(dthetaHalo p L * (180 / Real.pi)) * 3600 ∧
    (phiCutHalo p L).2 = dthetaHalo p L * (180 / Real.pi) * 3600 ∧
    dthetaHalo ⟨100, 0, 0⟩ 2 = Real.arctan (1 / 100) := by
  have hπ : Real.pi ≠ 0 := Real.pi_ne_zero
  refine ⟨rfl, ?_, ?_, ?_, ?_, ?_⟩
  · show (Real.pi / 2 - dthetaHalo p L) * 180 / Real.pi * ARCSEC = _
    rw [ARCSEC]
    field_simp
    ring
  · show (Real.pi / 2 + dthetaHalo p L) * 180 / Real.pi * ARCSEC = _
    rw [ARCSEC]
    field_simp
    ring
  · show (0 - dthetaHalo p L) * 180 / Real.pi * ARCSEC = _
    rw [ARCSEC]
    field_simp
  · show (0 + dthetaHalo p L) * 180 / Real.pi * ARCSEC = _
    rw [ARCSEC]
    field_simp
  · unfold dthetaHalo
    rw [norm3_axis 100 (by norm_num)]
    norm_num

/-- C8: the terminal simulation step 499 (zero redshift) is skipped entirely
by the step loop of both the fixed-window and the halo-centered pipeline: it
is never among the processed steps, and a step is processed iff it occurs in
the input list and differs from 499. -/
theorem c8_skip_terminal_step (steps : List ℤ) :
    (499 ∉ processedStepsFixed steps) ∧ (499 ∉ processedStepsHalo steps) ∧
    (∀ s, s ∈ processedStepsFixed steps ↔ s ∈ steps ∧ s ≠ 499) ∧
    (∀ s, s ∈ processedStepsHalo steps ↔ s ∈ steps ∧ s ≠ 499) := by
  refine ⟨?_, ?_, ?_, ?_⟩ <;>
    simp [processedStepsFixed, processedStepsHalo, List.mem_filter, and_comm]

/-- Witness for C8 on the step list [487, 499]. -/
theorem c8_skip_terminal_step_witness :
    499 ∉ processedStepsFixed [487, 499] ∧ 499 ∉ processedStepsHalo [487, 499] :=
  ⟨(c8_skip_terminal_step [487, 499]).1, (c8_skip_terminal_step [487, 499]).2.1⟩

/-- C9 counterexample: for a halo at (−1,0,0) — anti-parallel to the pole
(r,0,0) = (1,0,0) — the cross product is zero, the axis is the zero vector,
the Rodrigues matrix is the identity, and the halo position is mapped to
itself, (−1,0,0), which is not (|p|,0,0) = (1,0,0) on the direction of the
pole. -/
theorem c9_antiparallel_counterexample :
    rotate (haloK ⟨-1, 0, 0⟩) (haloB ⟨-1, 0, 0⟩) ⟨-1, 0, 0⟩
      ≠ ⟨norm3 ⟨-1, 0, 0⟩, 0, 0⟩ := by
  rw [haloK_axis, rotate_zero_axis]
  have hn : norm3 (⟨-1, 0, 0⟩ : Vec3) = 1 := by
    rw [norm3, show dotv (⟨-1, 0, 0⟩ : Vec3) ⟨-1, 0, 0⟩ = 1 from by norm_num [dotv],
      Real.sqrt_one]
  rw [hn]
  intro h
  have hx := congrArg Vec3.x h
  norm_num at hx

/-- C9 (amended): the rotation built by the halo pipeline from axis
k = normCross(p, q) and angle B = vecPairAngle(p, q), q = (|p|, 0, 0),
preserves the magnitude of every vector; and it maps p exactly onto
(|p|, 0, 0), the direction of the pole, provided p is not anti-parallel to
the pole (p is either off the x-axis, or on it with positive x). -/
theorem c9_rotation_isometry_alignment :
    (∀ (p v : Vec3), norm3 (rotate (haloK p) (haloB p) v) = norm3 v) ∧
    (∀ p : Vec3, (0 < p.y * p.y + p.z * p.z ∨ (0 < p.x ∧ p.y = 0 ∧ p.z = 0)) →
      rotate (haloK p) (haloB p) p = ⟨norm3 p, 0, 0⟩) := by
  refine ⟨?_, rotate_halo_aligns⟩
  intro p v
  unfold haloK
  exact norm3_rotate_normCross p ⟨norm3 p, 0, 0⟩ (haloB p) v

/-- Witness for C9 at the halo position (0,3,4). -/
theorem c9_rotation_isometry_alignment_witness :
    (0 < (⟨0, 3, 4⟩ : Vec3).y * (⟨0, 3, 4⟩ : Vec3).y
        + (⟨0, 3, 4⟩ : Vec3).z * (⟨0, 3, 4⟩ : Vec3).z
      ∨ (0 < (⟨0, 3, 4⟩ : Vec3).x ∧ (⟨0, 3, 4⟩ : Vec3).y = 0
          ∧ (⟨0, 3, 4⟩ : Vec3).z = 0)) ∧
      rotate (haloK ⟨0, 3, 4⟩) (haloB ⟨0, 3, 4⟩) ⟨0, 3, 4⟩
        = ⟨norm3 ⟨0, 3, 4⟩, 0, 0⟩ :=
  ⟨Or.inl (by norm_num),
    c9_rotation_isometry_alignment.2 ⟨0, 3, 4⟩ (Or.inl (by norm_num))⟩

/-- C10: if the halo position already lies on the positive x-axis, the
computed rotation axis is the zero vector, the computed angle is 0, the
Rodrigues matrix reduces to the identity, and rotating any position vector
returns it unchanged. -/
theorem c10_positive_axis_identity (a : ℝ) (ha : 0 < a) :
    haloK ⟨a, 0, 0⟩ = ⟨0, 0, 0⟩ ∧
    haloB ⟨a, 0, 0⟩ = 0 ∧
    rotationMatrix (crossProdMatrix (haloK ⟨a, 0, 0⟩)) (haloB ⟨a, 0, 0⟩) = idMat3 ∧
    (∀ v : Vec3, rotate (haloK ⟨a, 0, 0⟩) (haloB ⟨a, 0, 0⟩) v = v) := by
  refine ⟨haloK_axis a, haloB_pos_axis a ha, ?_, ?_⟩
  · rw [haloK_axis a]
    exact rotationMatrix_zero_axis _
  · intro v
    rw [haloK_axis a]
    exact rotate_zero_axis _ v

/-- Witness for C10 at the halo position (2,0,0). -/
theorem c10_positive_axis_identity_witness :
    (0 : ℝ) < 2 ∧
      (haloK ⟨2, 0, 0⟩ = ⟨0, 0, 0⟩ ∧ haloB ⟨2, 0, 0⟩ = 0 ∧
        rotationMatrix (crossProdMatrix (haloK ⟨2, 0, 0⟩)) (haloB ⟨2, 0, 0⟩) = idMat3 ∧
        (∀ v : Vec3, rotate (haloK ⟨2, 0, 0⟩) (haloB ⟨2, 0, 0⟩) v = v)) :=
  ⟨by norm_num, c10_positive_axis_identity 2 (by norm_num)⟩

end CosmoCutout
